import Mathlib

/-!
Verification of the risc0 verifiable-execution core: the ELF program loader
(`src/risc0/zkvm/src/binfmt/elf.rs`), the page-table geometry and memory-image
Merkle construction (`src/risc0/zkvm/src/binfmt/image.rs`), and the constraint
polynomial interpreter (`src/risc0/zkp/src/adapter.rs`), shallowly embedded in
Lean 4.  Machine integers are modelled as `Nat` with explicit `% 2^32` where
the Rust code checks or wraps 32-bit arithmetic; Rust panics (`expect`,
`assert!`, out-of-bounds slicing) are modelled as a distinguished fatal error
case, while returned `Err`/`anyhow` errors are modelled as recoverable error
cases, so the two failure modes of the source stay distinguishable.
-/

/-! ## Byte-buffer primitives

Rust slice reads `&buf[s..s+n]` and writes `buf[s..s+n].copy_from_slice(r)`
are modelled over `List Nat`. -/

/-- The slice `buf[s..s+n]` of a byte buffer. -/
def sliceL (l : List Nat) (s n : Nat) : List Nat :=
  (l.drop s).take n

/-- Overwrite the bytes of `l` starting at `s` with `r`
(model of `buf[s..s+r.len()].copy_from_slice(&r)`). -/
def splice (l : List Nat) (s : Nat) (r : List Nat) : List Nat :=
  l.take s ++ r ++ l.drop (s + r.length)

theorem sliceL_length (l : List Nat) (s n : Nat) (h : s + n ≤ l.length) :
    (sliceL l s n).length = n := by
  simp [sliceL]
  omega

theorem splice_length (l : List Nat) (s : Nat) (r : List Nat)
    (h : s + r.length ≤ l.length) : (splice l s r).length = l.length := by
  simp [splice]
  omega

theorem splice_getElem? (l : List Nat) (s : Nat) (r : List Nat)
    (h : s + r.length ≤ l.length) (p : Nat) :
    (splice l s r)[p]? =
      if p < s then l[p]?
      else if p < s + r.length then r[p - s]?
      else l[p]? := by
  unfold splice
  rcases Nat.lt_or_ge p s with hp | hp
  · rw [List.getElem?_append_left (by simp; omega),
      List.getElem?_append_left (by simp; omega), List.getElem?_take]
    simp [hp]
  · rcases Nat.lt_or_ge p (s + r.length) with hq | hq
    · rw [List.getElem?_append_left (by simp; omega),
        List.getElem?_append_right (by simp; omega)]
      simp only [List.length_take]
      rw [if_neg (by omega), if_pos hq]
      congr 1
      omega
    · rw [List.getElem?_append_right (by simp; omega)]
      simp only [List.length_append, List.length_take, List.getElem?_drop]
      rw [if_neg (by omega), if_neg (by omega)]
      congr 1
      omega

theorem sliceL_getElem? (l : List Nat) (s n p : Nat) :
    (sliceL l s n)[p]? = if p < n then l[s + p]? else none := by
  unfold sliceL
  rcases Nat.lt_or_ge p n with hp | hp
  · rw [List.getElem?_take]
    simp [hp, List.getElem?_drop]
  · rw [if_neg (by omega)]
    apply List.getElem?_eq_none
    simp
    omega

/-- Two buffers that agree at every position agree as lists. -/
theorem eq_of_getElem?_eq {l₁ l₂ : List Nat}
    (h : ∀ p : Nat, l₁[p]? = l₂[p]?) : l₁ = l₂ :=
  List.ext_getElem? h

/-- Slices taken from regions where two buffers agree pointwise are equal. -/
theorem sliceL_congr {l₁ l₂ : List Nat} (s n : Nat)
    (h : ∀ p, s ≤ p → p < s + n → l₁[p]? = l₂[p]?) :
    sliceL l₁ s n = sliceL l₂ s n := by
  apply eq_of_getElem?_eq
  intro p
  rw [sliceL_getElem?, sliceL_getElem?]
  by_cases hp : p < n
  · simp only [if_pos hp]
    exact h (s + p) (Nat.le_add_right _ _) (by omega)
  · simp [hp]

/-- Reading back the freshly written region returns exactly what was written. -/
theorem sliceL_splice_self (l : List Nat) (s : Nat) (r : List Nat)
    (h : s + r.length ≤ l.length) :
    sliceL (splice l s r) s r.length = r := by
  apply List.ext_getElem?
  intro p
  rw [sliceL_getElem?, splice_getElem? _ _ _ h]
  by_cases hp : p < r.length
  · rw [if_pos hp, if_neg (by omega), if_pos (by omega)]
    congr 1
    omega
  · rw [if_neg hp]
    exact (List.getElem?_eq_none (by omega)).symm

/-- A write outside the window `[s, s + r.length)` does not change a position. -/
theorem splice_getElem?_outside (l : List Nat) (s : Nat) (r : List Nat)
    (h : s + r.length ≤ l.length) (p : Nat)
    (hp : p < s ∨ s + r.length ≤ p) :
    (splice l s r)[p]? = l[p]? := by
  rw [splice_getElem? _ _ _ h]
  rcases hp with hp | hp
  · rw [if_pos hp]
  · rw [if_neg (by omega), if_neg (by omega)]

/-- Writing back the bytes already present leaves the buffer unchanged. -/
theorem splice_eq_self (l : List Nat) (s : Nat) (r : List Nat)
    (h : s + r.length ≤ l.length) (hr : sliceL l s r.length = r) :
    splice l s r = l := by
  apply eq_of_getElem?_eq
  intro p
  rw [splice_getElem? _ _ _ h]
  by_cases h1 : p < s
  · rw [if_pos h1]
  · by_cases h2 : p < s + r.length
    · rw [if_neg h1, if_pos h2]
      have := congrArg (fun t => t[p - s]?) hr
      simp only at this
      rw [this.symm, sliceL_getElem?]
      rw [if_pos (by omega)]
      congr 1
      omega
    · rw [if_neg h1, if_neg h2]

/-! ## ELF loader (`Program::load_elf`, src/risc0/zkvm/src/binfmt/elf.rs)

The `elf` crate's `ElfBytes::<LittleEndian>::minimal_parse` is an external
dependency; `loadElf` therefore takes its result (`Option ElfFile`, `none`
meaning the parse failed) as an input alongside the raw bytes.  Fields that
the crate exposes as `u64` are `Nat`s; the `try_into::<u32>()` conversions
and their `expect` calls are modelled explicitly. -/

/-- ELF class parsed from the identification bytes (`elf::file::Class`). -/
inductive ElfClass where
  | elf32
  | elf64
deriving DecidableEq, Repr

/-- A program header entry as exposed by the `elf` crate (u64 fields). -/
structure Segment where
  p_type : Nat
  p_offset : Nat
  p_vaddr : Nat
  p_filesz : Nat
  p_memsz : Nat
deriving DecidableEq, Repr

/-- The parts of a successfully parsed ELF file that `load_elf` consumes.
`segments = none` models `elf.segments()` returning `None`. -/
structure ElfFile where
  cls : ElfClass
  e_machine : Nat
  e_type : Nat
  e_entry : Nat
  segments : Option (List Segment)
deriving DecidableEq, Repr

/-- Constant `elf::abi::EM_RISCV`. -/
def EM_RISCV : Nat := 243

/-- Constant `elf::abi::ET_EXEC`. -/
def ET_EXEC : Nat := 2

/-- Constant `elf::abi::PT_LOAD`. -/
def PT_LOAD : Nat := 1

/-- How a `load_elf` call fails: `format` is a returned `Err(String)`
(recoverable); `fatal` is a panic raised by an `expect` (not recoverable). -/
inductive LoadErr where
  | format (msg : String)
  | fatal (msg : String)
deriving DecidableEq, Repr

/-- A RISC Zero program: entrypoint plus the sparse word image.  The
`BTreeMap<u32, u32>` is modelled as a key-sorted association list, so the
list order is the map's iteration order. -/
structure Program where
  entry : Nat
  image : List (Nat × Nat)
deriving DecidableEq, Repr

/-- Model of `BTreeMap::insert`: insert keeping keys strictly sorted, replacing an
existing binding of the same key. -/
def mapInsert (k v : Nat) : List (Nat × Nat) → List (Nat × Nat)
  | [] => [(k, v)]
  | (k', v') :: rest =>
    if k < k' then (k, v) :: (k', v') :: rest
    else if k = k' then (k, v) :: rest
    else (k', v') :: mapInsert k v rest

/-- Bytes `input[offset+i .. offset+i+len)` assembled into a little-endian
word, where `len = min (file_size - i) 4`; reading past the end of the input
is the `expect("Invalid offset.")` panic, modelled as `none`.  The `u32`
additions `offset + i + j` wrap modulo `2^32` (release-mode semantics). -/
def readWord (input : List Nat) (offset fileSize i : Nat) : Option Nat :=
  (List.range (min (fileSize - i) 4)).foldlM
    (fun w j => (input[(offset + i + j) % 2^32]?).map
      (fun b => w ||| (b <<< (j * 8))))
    0

/-- One iteration of the word-copy loop of `load_elf` at index `i`:
`checked_add` overflow and failed input reads are fatal (`expect`). -/
def segStep (input : List Nat) (vaddr offset fileSize : Nat)
    (img : List (Nat × Nat)) (i : Nat) : Except LoadErr (List (Nat × Nat)) :=
  if 2^32 ≤ vaddr + i then .error (.fatal "Invalid segment.")
  else if fileSize ≤ i then .ok (mapInsert (vaddr + i) 0 img)
  else
    match readWord input offset fileSize i with
    | none => .error (.fatal "Invalid offset.")
    | some w => .ok (mapInsert (vaddr + i) w img)

/-- The loop `for i in (0..mem_size).step_by(4)`, with `n` iterations left and
current index `i`. -/
def segLoopN (input : List Nat) (vaddr offset fileSize : Nat) :
    Nat → Nat → List (Nat × Nat) → Except LoadErr (List (Nat × Nat))
  | 0, _, img => .ok img
  | n + 1, i, img =>
    match segStep input vaddr offset fileSize img i with
    | .error e => .error e
    | .ok img' => segLoopN input vaddr offset fileSize n (i + 4) img'

/-- Processing of the `PT_LOAD` segments in table order: per-segment
`try_into::<u32>()` conversions, the size checks, and the word-copy loop. -/
def loadSegs (input : List Nat) (maxMem : Nat) :
    List Segment → List (Nat × Nat) → Except LoadErr (List (Nat × Nat))
  | [], img => .ok img
  | s :: rest, img =>
    if 2^32 ≤ s.p_filesz then .error (.fatal "Invalid segment.")
    else if maxMem ≤ s.p_filesz then .error (.format "Invalid segment file_size")
    else if 2^32 ≤ s.p_memsz then .error (.fatal "Memory allocation")
    else if maxMem ≤ s.p_memsz then .error (.format "Invalid segment mem_size")
    else if 2^32 ≤ s.p_vaddr then .error (.fatal "Invalid vaddr.")
    else if 2^32 ≤ s.p_offset then .error (.fatal "Invalid offset.")
    else
      match segLoopN input s.p_vaddr s.p_offset s.p_filesz
          ((s.p_memsz + 3) / 4) 0 img with
      | .error e => .error e
      | .ok img' => loadSegs input maxMem rest img'

/-- Model of `Program::load_elf(input, max_mem)`.  `parsed` is the result of the
external `ElfBytes::<LittleEndian>::minimal_parse(input)`; a parse failure
hits `.expect("Could not parse")`. -/
def loadElf (parsed : Option ElfFile) (input : List Nat) (maxMem : Nat) :
    Except LoadErr Program :=
  match parsed with
  | none => .error (.fatal "Could not parse")
  | some e =>
    if e.cls ≠ ElfClass.elf32 then .error (.format "Not a 32-bit ELF")
    else if e.e_machine ≠ EM_RISCV then
      .error (.format "Invalid machine type, must be RISC-V")
    else if e.e_type ≠ ET_EXEC then
      .error (.format "Invalid ELF type, must be executable")
    else if 2^32 ≤ e.e_entry then .error (.fatal "Entry error")
    else if maxMem ≤ e.e_entry ∨ e.e_entry % 4 ≠ 0 then
      .error (.format "Invalid entrypoint")
    else
      match e.segments with
      | none => .error (.fatal "Missing segment table")
      | some segs =>
        if 256 < segs.length then .error (.format "Too many program headers")
        else
          match loadSegs input maxMem (segs.filter (fun s => s.p_type == PT_LOAD)) [] with
          | .error err => .error err
          | .ok img => .ok ⟨e.e_entry, img⟩

/-- Recoverable-error test used to state the error-taxonomy claims. -/
def isFormatErr : Except LoadErr Program → Bool
  | .error (.format _) => true
  | _ => false

deriving instance DecidableEq for Except

/-! ### Key-set lemmas for the loader -/

theorem mapInsert_keys {k v k' : Nat} :
    ∀ {l : List (Nat × Nat)}, k' ∈ (mapInsert k v l).map Prod.fst →
      k' = k ∨ k' ∈ l.map Prod.fst := by
  intro l
  induction l with
  | nil => intro h; simp [mapInsert] at h; exact Or.inl h
  | cons a rest ih =>
    intro h
    unfold mapInsert at h
    by_cases h1 : k < a.1
    · rw [if_pos h1] at h
      simp at h
      rcases h with h | h | h
      · exact Or.inl h
      · exact Or.inr (by simp [h])
      · exact Or.inr (by simp [h])
    · rw [if_neg h1] at h
      by_cases h2 : k = a.1
      · rw [if_pos h2] at h
        simp at h
        rcases h with h | h
        · exact Or.inl h
        · exact Or.inr (by simp [h])
      · rw [if_neg h2] at h
        simp at h
        rcases h with h | h
        · exact Or.inr (by simp [h])
        · rcases ih (by simpa using h) with h' | h'
          · exact Or.inl h'
          · exact Or.inr (by simp; exact Or.inr (by simpa using h'))

theorem segStep_ok {input : List Nat} {vaddr offset fileSize : Nat}
    {img img' : List (Nat × Nat)} {i : Nat}
    (h : segStep input vaddr offset fileSize img i = .ok img') :
    ∃ w, img' = mapInsert (vaddr + i) w img := by
  unfold segStep at h
  split at h
  · exact absurd h (by simp)
  · split at h
    · exact ⟨0, by injection h with h; exact h.symm⟩
    · split at h
      · exact absurd h (by simp)
      · exact ⟨_, by injection h with h; exact h.symm⟩

theorem segLoopN_keys_sat (input : List Nat) (vaddr offset fileSize : Nat)
    (P : Nat → Prop) :
    ∀ n i img img',
      segLoopN input vaddr offset fileSize n i img = .ok img' →
      (∀ t, t < n → P (vaddr + (i + 4 * t))) →
      (∀ k ∈ img.map Prod.fst, P k) →
      ∀ k ∈ img'.map Prod.fst, P k := by
  intro n
  induction n with
  | zero =>
    intro i img img' hres hiter hinv
    injection hres with h
    exact h ▸ hinv
  | succ n ih =>
    intro i img img' hres hiter hinv
    unfold segLoopN at hres
    cases hstep : segStep input vaddr offset fileSize img i with
    | error e => rw [hstep] at hres; exact absurd hres (by simp)
    | ok img₁ =>
      rw [hstep] at hres
      obtain ⟨w, rfl⟩ := segStep_ok hstep
      refine ih (i + 4) _ img' hres (fun t ht => ?_) (fun k hk => ?_)
      · have := hiter (t + 1) (by omega)
        have harith : vaddr + (i + 4 * (t + 1)) = vaddr + (i + 4 + 4 * t) := by omega
        exact harith ▸ this
      · rcases mapInsert_keys hk with h | h
        · have := hiter 0 (by omega)
          simpa [h] using this
        · exact hinv k h

theorem loadSegs_keys_sat (input : List Nat) (maxMem : Nat) :
    ∀ segs img img',
      loadSegs input maxMem segs img = .ok img' →
      (∀ s ∈ segs, s.p_vaddr % 4 = 0 ∧ s.p_vaddr + s.p_memsz ≤ maxMem) →
      (∀ k ∈ img.map Prod.fst, k % 4 = 0 ∧ k < maxMem) →
      ∀ k ∈ img'.map Prod.fst, k % 4 = 0 ∧ k < maxMem := by
  intro segs
  induction segs with
  | nil =>
    intro img img' hres _ hinv
    injection hres with h
    exact h ▸ hinv
  | cons s rest ih =>
    intro img img' hres hsegs hinv
    unfold loadSegs at hres
    split at hres
    · exact absurd hres (by simp)
    · split at hres
      · exact absurd hres (by simp)
      · split at hres
        · exact absurd hres (by simp)
        · split at hres
          · exact absurd hres (by simp)
          · split at hres
            · exact absurd hres (by simp)
            · split at hres
              · exact absurd hres (by simp)
              · rename_i hfsz32 hfszmm hmsz32 hmszmm hva32 hoff32
                cases hloop : segLoopN input s.p_vaddr s.p_offset s.p_filesz
                    ((s.p_memsz + 3) / 4) 0 img with
                | error e => rw [hloop] at hres; exact absurd hres (by simp)
                | ok img₁ =>
                  rw [hloop] at hres
                  obtain ⟨hva4, hbound⟩ := hsegs s (by simp)
                  refine ih img₁ img' hres
                    (fun s' hs' => hsegs s' (by simp [hs'])) ?_
                  refine segLoopN_keys_sat input s.p_vaddr s.p_offset s.p_filesz
                    _ _ 0 img img₁ hloop (fun t ht => ?_) hinv
                  constructor
                  · omega
                  · have hmm : ¬ maxMem ≤ s.p_memsz := hmszmm
                    omega

/-- Claim C1 concrete refuting input: a parsed 32-bit RISC-V executable with a
single `PT_LOAD` segment at the unaligned virtual address 1. -/
def c1elf : ElfFile := ⟨.elf32, 243, 2, 0, some [⟨1, 0, 1, 0, 4⟩]⟩

/-- The invariant claimed for image keys, as an executable check. -/
def keysOkb (p : Program) (maxMem : Nat) : Bool :=
  p.image.all (fun kv => kv.1 % 4 == 0 && kv.1 < maxMem)

/-- C1 (counterexample): `load_elf` succeeds on a parsed executable whose
loadable segment starts at virtual address 1, and the returned image has the
key 1, which is not a multiple of 4, so the claimed key invariant fails: the
loader never checks the alignment of `p_vaddr` nor that `vaddr + i < max_mem`. -/
theorem c1_counterexample :
    loadElf (some c1elf) [] 8 = .ok ⟨0, [(1, 0)]⟩ ∧
      keysOkb ⟨0, [(1, 0)]⟩ 8 = false := by
  constructor
  · decide
  · decide

/-- C1 (amended): if every loadable segment of the parsed file has a
word-aligned virtual address and `p_vaddr + p_memsz ≤ max_mem`, then every
key of the image returned by `load_elf` is a multiple of 4 and is strictly
below `max_mem`. -/
theorem c1_amended (e : ElfFile) (input : List Nat) (maxMem : Nat)
    (prog : Program) (segs : List Segment)
    (hres : loadElf (some e) input maxMem = .ok prog)
    (hsegs : e.segments = some segs)
    (hgood : ∀ s ∈ segs, s.p_type = PT_LOAD →
      s.p_vaddr % 4 = 0 ∧ s.p_vaddr + s.p_memsz ≤ maxMem) :
    ∀ k ∈ prog.image.map Prod.fst, k % 4 = 0 ∧ k < maxMem := by
  simp only [loadElf] at hres
  split at hres
  · exact absurd hres (by simp)
  · split at hres
    · exact absurd hres (by simp)
    · split at hres
      · exact absurd hres (by simp)
      · split at hres
        · exact absurd hres (by simp)
        · split at hres
          · exact absurd hres (by simp)
          · rw [hsegs] at hres
            split at hres
            · exact absurd hres (by simp)
            · rename_i segs' heq
              injection heq with heq
              subst heq
              split at hres
              · exact absurd hres (by simp)
              · cases hload : loadSegs input maxMem
                    (segs.filter (fun s => s.p_type == PT_LOAD)) [] with
                | error e' => rw [hload] at hres; exact absurd hres (by simp)
                | ok img =>
                  rw [hload] at hres
                  injection hres with hres
                  subst hres
                  exact loadSegs_keys_sat input maxMem _ [] img hload
                    (fun s hs => by
                      rw [List.mem_filter] at hs
                      exact hgood s hs.1 (by simpa using hs.2))
                    (by simp)

/-- C1 amended witness: a parsed file with one aligned, in-bounds loadable
segment; the loaded keys 0 and 4 satisfy the invariant. -/
def c1aelf : ElfFile := ⟨.elf32, 243, 2, 0, some [⟨1, 0, 0, 4, 8⟩]⟩

/-- Witness for the amended C1 at a concrete aligned executable. -/
theorem c1_amended_witness :
    loadElf (some c1aelf) [1, 2, 3, 4] 16 = .ok ⟨0, [(0, 67305985), (4, 0)]⟩ ∧
      (4 % 4 = 0 ∧ 4 < 16) :=
  ⟨by decide,
    c1_amended c1aelf [1, 2, 3, 4] 16 ⟨0, [(0, 67305985), (4, 0)]⟩
      [⟨1, 0, 0, 4, 8⟩] (by decide) rfl (by decide) 4 (by decide)⟩

/-! ### Address-overflow and error-taxonomy behaviour of the loader -/

/-- If some iteration of the word-copy loop overflows the 32-bit address
space, and the segment has file size 0 (so no input read can fail first),
the loop aborts with the `expect("Invalid segment.")` panic. -/
theorem segLoopN_overflow (input : List Nat) (vaddr offset : Nat) :
    ∀ n i img, (∃ t, t < n ∧ 2^32 ≤ vaddr + (i + 4 * t)) →
      segLoopN input vaddr offset 0 n i img =
        .error (.fatal "Invalid segment.") := by
  intro n
  induction n with
  | zero => intro i img ⟨t, ht, _⟩; omega
  | succ n ih =>
    intro i img ⟨t, ht, hover⟩
    unfold segLoopN
    by_cases h0 : 2^32 ≤ vaddr + i
    · unfold segStep
      rw [if_pos h0]
    · have ht1 : 1 ≤ t := by
        by_contra h
        have : t = 0 := by omega
        subst this
        simp at hover
        omega
      unfold segStep
      rw [if_neg h0, if_pos (by omega)]
      exact ih (i + 4) _ ⟨t - 1, by omega, by omega⟩

/-- Claim C5 concrete refuting input: one loadable zero-file-size segment at
virtual address `2^32 - 4` with memory size 8, so the second loop iteration
computes `0xFFFFFFFC + 4`, which overflows `u32`. -/
def c5elf : ElfFile := ⟨.elf32, 243, 2, 0, some [⟨1, 0, 4294967292, 0, 8⟩]⟩

/-- C5 (counterexample): on an address addition overflowing the 32-bit
address space, `load_elf` terminates with the `expect("Invalid segment.")`
panic — not with a returned `FormatError` as the claim states. -/
theorem c5_counterexample :
    loadElf (some c5elf) [] 16 = .error (.fatal "Invalid segment.") ∧
      isFormatErr (loadElf (some c5elf) [] 16) = false := by
  constructor
  · decide
  · decide

/-- C5 (amended): an address addition that would overflow the 32-bit address
space makes `load_elf` abort via the `expect` panic on the failed
`checked_add` rather than return a `FormatError` (stated for a well-formed
header with a single zero-file-size loadable segment reaching the overflow). -/
theorem c5_amended (e : ElfFile) (input : List Nat)
    (maxMem vaddr memsz : Nat)
    (hcls : e.cls = ElfClass.elf32) (hm : e.e_machine = EM_RISCV)
    (ht : e.e_type = ET_EXEC) (hentry : e.e_entry = 0) (hmm : 0 < maxMem)
    (hseg : e.segments = some [⟨PT_LOAD, 0, vaddr, 0, memsz⟩])
    (hmemsz : memsz < maxMem) (hmm32 : maxMem ≤ 2^32) (hva : vaddr < 2^32)
    (hover : ∃ t, 4 * t < memsz ∧ 2^32 ≤ vaddr + 4 * t) :
    loadElf (some e) input maxMem = .error (.fatal "Invalid segment.") := by
  obtain ⟨t, htm, htov⟩ := hover
  simp only [loadElf]
  rw [if_neg (by simp [hcls]), if_neg (by simp [hm]), if_neg (by simp [ht]),
    if_neg (by omega), if_neg (by rw [hentry]; omega), hseg]
  simp only [List.filter, PT_LOAD]
  rw [if_neg (by simp)]
  simp only [loadSegs, PT_LOAD]
  rw [if_neg (by omega), if_neg (by omega), if_neg (by omega),
    if_neg (by omega), if_neg (by simpa using hva), if_neg (by omega)]
  rw [segLoopN_overflow input vaddr 0 ((memsz + 3) / 4) 0 []
    ⟨t, by omega, by omega⟩]

/-- Witness for the amended C5 at the concrete overflowing executable. -/
theorem c5_amended_witness :
    loadElf (some c5elf) [] 16 = Except.error (LoadErr.fatal "Invalid segment.") :=
  c5_amended c5elf [] 16 4294967292 8 rfl rfl rfl rfl (by decide) rfl
    (by decide) (by decide) (by decide) ⟨1, by decide, by decide⟩

/-- The header-level rejection conditions of `load_elf` that the spec lists
as `FormatError` cases, as an executable predicate: wrong ELF class, wrong
machine, wrong file type, misaligned or out-of-range entry point, or more
than 256 program headers. -/
def elfBadb (e : ElfFile) (maxMem : Nat) : Bool :=
  (e.cls != ElfClass.elf32) || (e.e_machine != EM_RISCV) ||
    (e.e_type != ET_EXEC) || (e.e_entry % 4 != 0) ||
    (decide (maxMem ≤ e.e_entry)) ||
    (match e.segments with
     | some segs => decide (256 < segs.length)
     | none => false)

/-- C6: whenever the parsed header is not 32-bit, not RISC-V, not an
executable, has a misaligned or out-of-range entry point, or has more than
256 program headers, `load_elf` returns a recoverable `FormatError` (so in
particular no `Program` — and hence no `MemoryImage` — is produced).  The
hypothesis `e_entry < 2^32` holds for every parsed 32-bit header, whose
entry field is a 4-byte word. -/
theorem c6_format_errors (e : ElfFile) (input : List Nat) (maxMem : Nat)
    (h32 : e.e_entry < 2^32) (hbad : elfBadb e maxMem = true) :
    isFormatErr (loadElf (some e) input maxMem) = true := by
  simp only [loadElf]
  by_cases h1 : e.cls = ElfClass.elf32
  case neg => rw [if_pos (by simp [h1])]; rfl
  case pos =>
  rw [if_neg (by simp [h1])]
  by_cases h2 : e.e_machine = EM_RISCV
  case neg => rw [if_pos (by simp [h2])]; rfl
  case pos =>
  rw [if_neg (by simp [h2])]
  by_cases h3 : e.e_type = ET_EXEC
  case neg => rw [if_pos (by simp [h3])]; rfl
  case pos =>
  rw [if_neg (by simp [h3])]
  rw [if_neg (by omega)]
  by_cases h4 : maxMem ≤ e.e_entry ∨ e.e_entry % 4 ≠ 0
  case pos => rw [if_pos h4]; rfl
  case neg =>
  rw [if_neg h4]
  simp only [elfBadb, h1, h2, h3] at hbad
  have h5 : e.e_entry % 4 = 0 := by omega
  have h6 : ¬ maxMem ≤ e.e_entry := by omega
  simp only [h5, h6] at hbad
  cases hsegs : e.segments with
  | none => rw [hsegs] at hbad; simp at hbad
  | some segs =>
    rw [hsegs] at hbad
    simp at hbad
    dsimp only
    rw [if_pos (by omega)]
    rfl

/-- Witness for C6: a 64-bit-class header is rejected with a `FormatError`. -/
theorem c6_witness :
    (42 : Nat) < 2^32 ∧ elfBadb ⟨.elf64, 243, 2, 42, some []⟩ 64 = true ∧
      isFormatErr (loadElf (some ⟨.elf64, 243, 2, 42, some []⟩) [] 64) = true :=
  ⟨by decide, by decide,
    c6_format_errors ⟨.elf64, 243, 2, 42, some []⟩ [] 64 (by decide) (by decide)⟩

/-- Claim C10 concrete input: a loadable segment whose file contents
(`p_offset = 100`, `p_filesz = 4`) lie past the end of the 4-byte input. -/
def c10elf : ElfFile := ⟨.elf32, 243, 2, 0, some [⟨1, 100, 0, 4, 4⟩]⟩

/-- C10: `load_elf` can terminate by panic on untrusted input: an input that
fails minimal ELF parsing (e.g. one too short to parse) hits
`.expect("Could not parse")`, and a loadable segment whose file offset plus
file size extends past the end of the input hits `.expect("Invalid
offset.")`; neither is returned as an error. -/
theorem c10_loader_panics :
    loadElf none [] 1024 = .error (.fatal "Could not parse") ∧
      loadElf (some c10elf) [7, 7, 7, 7] 1024 =
        .error (.fatal "Invalid offset.") ∧
      isFormatErr (loadElf (some c10elf) [7, 7, 7, 7] 1024) = false := by
  refine ⟨rfl, by decide, by decide⟩

/-! ## Page table geometry (`PageTableInfo::new`, src/risc0/zkvm/src/binfmt/image.rs)

`DIGEST_BYTES = 32` and `BLOCK_BYTES = 64` are the SHA-256 digest and block
sizes.  The `while remain >= page_size` loop is modelled with an explicit
fuel bound (`none` = the loop would still be running when the fuel runs
out); a fuel of `max_mem + 1` is shown sufficient whenever `page_size > 32`. -/

/-- Constant `DIGEST_BYTES`: byte width of a SHA-256 digest. -/
def DIGEST_BYTES : Nat := 32

/-- Constant `BLOCK_BYTES`: byte width of a SHA-256 compression block. -/
def BLOCK_BYTES : Nat := 64

/-- Model of `round_up(a, b) = div_ceil(a, b) * b`. -/
def roundUp (a b : Nat) : Nat := (a + b - 1) / b * b

/-- The `while remain >= page_size` layer loop of `PageTableInfo::new`,
returning the pushed layer sizes and their sum (`page_table_size`). -/
def ptLoop (ps : Nat) : Nat → Nat → Option (List Nat × Nat)
  | 0, remain => if remain < ps then some ([], 0) else none
  | fuel + 1, remain =>
    if remain < ps then some ([], 0)
    else
      let r := remain / ps * DIGEST_BYTES
      match ptLoop ps fuel r with
      | none => none
      | some (ls, s) => some (r :: ls, r + s)

/-- Structure `PageTableInfo` (the private fields included). -/
structure PTInfo where
  page_size : Nat
  page_table_addr : Nat
  _page_table_size : Nat
  root_addr : Nat
  root_idx : Nat
  root_page_addr : Nat
  num_pages : Nat
  num_root_entries : Nat
  _layers : List Nat
deriving DecidableEq, Repr

/-- Model of `PageTableInfo::new(page_table_addr, page_size)`: `none` models a panic
(failed `assert!`, division by zero at `page_size = 0`, or a diverging layer
loop). -/
def ptInfoNew (pta ps : Nat) : Option PTInfo :=
  if ps = 0 then none
  else if pta < ps then none
  else
    match ptLoop ps (pta + 1) pta with
    | none => none
    | some (layers, pts) =>
      let maxMem := pta + pts
      let numPages := maxMem / ps
      let pts' := roundUp pts BLOCK_BYTES
      let rootAddr := pta + pts'
      let rootIdx := rootAddr / ps
      let rootPageAddr := rootIdx * ps
      let numRootEntries := (rootAddr - rootPageAddr) / DIGEST_BYTES
      if rootIdx = numPages then
        some ⟨ps, pta, pts', rootAddr, rootIdx, rootPageAddr, numPages,
          numRootEntries, layers⟩
      else none

/-- C9: the geometry for `max_mem = 0x1A00`, `page_size = 1024` has exactly
one digest-table layer of 192 bytes, `root_addr = 0x1AC0`,
`root_page_addr = 0x1800`, and
`num_root_entries = (0x1A00 - 0x1800) / 32 + 6 = 22`. -/
theorem c9_fractional_geometry :
    ptInfoNew 0x1A00 1024 =
      some ⟨1024, 0x1A00, 192, 0x1AC0, 6, 0x1800, 6, (0x1A00 - 0x1800) / 32 + 6,
        [192]⟩ := by
  decide

/-- C3 (counterexample): at `max_mem = 31744`, `page_size = 1024` the layer
loop terminates (one layer of 992 bytes) but rounding the table size to the
64-byte block boundary pushes `root_addr` across a page boundary, so the
`assert_eq!(root_idx, num_pages)` fails: `PageTableInfo::new` panics and the
claimed `root_idx == num_pages` does not hold.  (At `page_size ≤ 32`, e.g.
`(32, 32)`, the loop does not even terminate.) -/
theorem c3_counterexample :
    ptInfoNew 31744 1024 = none ∧
      ptLoop 1024 31745 31744 = some ([992], 992) := by
  constructor
  · decide
  · decide

/-- With `page_size ≥ 33` the layer value strictly decreases, so fuel
`remain + 1` always suffices: the layer loop terminates. -/
theorem ptLoop_terminates (ps : Nat) (hps : 32 < ps) :
    ∀ fuel remain, remain < fuel → (ptLoop ps fuel remain).isSome := by
  intro fuel
  induction fuel with
  | zero => intro remain h; omega
  | succ fuel ih =>
    intro remain h
    unfold ptLoop
    by_cases h1 : remain < ps
    · rw [if_pos h1]; rfl
    · rw [if_neg h1]
      have hdec : remain / ps * DIGEST_BYTES < remain := by
        have h2 : remain / ps * ps ≤ remain := Nat.div_mul_le_self remain ps
        have h3 : 1 ≤ remain / ps := (Nat.one_le_div_iff (by omega)).2 (by omega)
        have h4 : remain / ps * DIGEST_BYTES < remain / ps * ps :=
          Nat.mul_lt_mul_of_pos_left (by unfold DIGEST_BYTES; omega) (by omega)
        omega
      have := ih (remain / ps * DIGEST_BYTES) (by omega)
      cases hrec : ptLoop ps fuel (remain / ps * DIGEST_BYTES) with
      | none => rw [hrec] at this; exact absurd this (by simp)
      | some v =>
        cases v with
        | mk ls s => simp only [hrec]; rfl

/-- When the remaining size is already below the page size the loop body
never runs, whatever the fuel. -/
theorem ptLoop_small (ps : Nat) (fuel remain : Nat) (h : remain < ps) :
    ptLoop ps fuel remain = some ([], 0) := by
  cases fuel with
  | zero => unfold ptLoop; rw [if_pos h]
  | succ fuel => unfold ptLoop; rw [if_pos h]

/-- The first pushed layer, if any, is `remain / ps * 32`. -/
theorem ptLoop_head (ps : Nat) :
    ∀ fuel remain ls s, ptLoop ps fuel remain = some (ls, s) →
      ls.head? = none ∨ ls.head? = some (remain / ps * DIGEST_BYTES) := by
  intro fuel remain ls s h
  cases fuel with
  | zero =>
    unfold ptLoop at h
    split at h
    · injection h with h; cases h; exact Or.inl rfl
    · exact absurd h (by simp)
  | succ fuel =>
    unfold ptLoop at h
    split at h
    · injection h with h; cases h; exact Or.inl rfl
    · simp only at h
      cases hrec : ptLoop ps fuel (remain / ps * DIGEST_BYTES) with
      | none => rw [hrec] at h; exact absurd h (by simp)
      | some v =>
        cases v with
        | mk ls₂ s₂ =>
          rw [hrec] at h
          injection h with h
          cases h
          exact Or.inr rfl

/-- The pushed layer sizes are strictly decreasing (for `page_size > 32`). -/
theorem ptLoop_layers_decreasing (ps : Nat) (hps : 32 < ps) :
    ∀ fuel remain ls s, ptLoop ps fuel remain = some (ls, s) →
      List.Chain' (fun a b => b < a) ls := by
  intro fuel
  induction fuel with
  | zero =>
    intro remain ls s h
    unfold ptLoop at h
    split at h
    · injection h with h; cases h; exact List.chain'_nil
    · exact absurd h (by simp)
  | succ fuel ih =>
    intro remain ls s h
    unfold ptLoop at h
    split at h
    · injection h with h; cases h; exact List.chain'_nil
    · rename_i h1
      simp only at h
      cases hrec : ptLoop ps fuel (remain / ps * DIGEST_BYTES) with
      | none => rw [hrec] at h; exact absurd h (by simp)
      | some v =>
        cases v with
        | mk ls₂ s₂ =>
          rw [hrec] at h
          injection h with h
          cases h
          rw [List.chain'_cons']
          refine ⟨?_, ih _ _ _ hrec⟩
          intro b hb
          rcases ptLoop_head ps fuel _ _ _ hrec with hh | hh
          · rw [hh] at hb; exact absurd hb (by simp)
          · rw [hh] at hb
            simp at hb
            subst hb
            set r := remain / ps * DIGEST_BYTES with hr
            have hrps : r / ps * ps ≤ r := Nat.div_mul_le_self r ps
            by_cases hrsmall : r < ps
            · have : r / ps = 0 := Nat.div_eq_of_lt hrsmall
              rw [this]
              have : 0 < r := by
                have h3 : 1 ≤ remain / ps := (Nat.one_le_div_iff (by omega)).2 (by omega)
                have : 0 < DIGEST_BYTES := by unfold DIGEST_BYTES; omega
                positivity
              omega
            · have h3 : 1 ≤ r / ps := (Nat.one_le_div_iff (by omega)).2 (by omega)
              have h4 : r / ps * DIGEST_BYTES < r / ps * ps :=
                Nat.mul_lt_mul_of_pos_left (by unfold DIGEST_BYTES; omega) (by omega)
              omega

/-- The accumulated page-table size is a multiple of the digest size. -/
theorem ptLoop_s_mul32 (ps : Nat) :
    ∀ fuel remain ls s, ptLoop ps fuel remain = some (ls, s) →
      ∃ T, s = DIGEST_BYTES * T := by
  intro fuel
  induction fuel with
  | zero =>
    intro remain ls s h
    unfold ptLoop at h
    split at h
    · injection h with h; cases h; exact ⟨0, by omega⟩
    · exact absurd h (by simp)
  | succ fuel ih =>
    intro remain ls s h
    unfold ptLoop at h
    split at h
    · injection h with h; cases h; exact ⟨0, by omega⟩
    · simp only at h
      cases hrec : ptLoop ps fuel (remain / ps * DIGEST_BYTES) with
      | none => rw [hrec] at h; exact absurd h (by simp)
      | some v =>
        cases v with
        | mk ls₂ s₂ =>
          rw [hrec] at h
          injection h with h
          cases h
          obtain ⟨T, hT⟩ := ih _ _ _ hrec
          refine ⟨remain / ps + T, ?_⟩
          rw [hT]
          ring

/-- Telescoping bound on the page-table size: for `page_size > 32` and at
least one loop iteration, `page_table_size * (page_size - 32) + 1024 ≤
32 * max_mem`. -/
theorem ptLoop_ts_bound (ps q : Nat) (hq : ps = q + 32) (hq0 : 0 < q) :
    ∀ fuel remain ls s, ps ≤ remain →
      ptLoop ps fuel remain = some (ls, s) →
      s * q + 1024 ≤ 32 * remain := by
  intro fuel
  induction fuel with
  | zero =>
    intro remain ls s hle h
    unfold ptLoop at h
    rw [if_neg (by omega)] at h
    exact absurd h (by simp)
  | succ fuel ih =>
    intro remain ls s hle h
    unfold ptLoop at h
    rw [if_neg (by omega)] at h
    simp only at h
    set n := remain / ps with hn
    have hn1 : 1 ≤ n := (Nat.one_le_div_iff (by omega)).2 hle
    have hnps : n * ps ≤ remain := by
      rw [hn]
      exact Nat.div_mul_le_self remain ps
    cases hrec : ptLoop ps fuel (n * DIGEST_BYTES) with
    | none => rw [hrec] at h; exact absurd h (by simp)
    | some v =>
      cases v with
      | mk ls₂ s₂ =>
        rw [hrec] at h
        injection h with h
        cases h
        by_cases hsmall : n * DIGEST_BYTES < ps
        · have : ptLoop ps fuel (n * DIGEST_BYTES) = some ([], 0) :=
            ptLoop_small ps fuel _ hsmall
          rw [this] at hrec
          injection hrec with hrec
          have hs₂ : s₂ = 0 := by
            have := congrArg Prod.snd hrec
            simpa using this.symm
          subst hs₂
          rw [Nat.add_zero]
          have e1 : n * DIGEST_BYTES * q + 1024 ≤ 32 * (n * ps) := by
            unfold DIGEST_BYTES
            calc n * 32 * q + 1024 ≤ n * 32 * q + 1024 * n := by
                  have : 1024 ≤ 1024 * n := by omega
                  omega
              _ = 32 * (n * (q + 32)) := by ring
              _ = 32 * (n * ps) := by rw [← hq]
          calc n * DIGEST_BYTES * q + 1024 ≤ 32 * (n * ps) := e1
            _ ≤ 32 * remain := by omega
        · have hrec32 : s₂ * q + 1024 ≤ 32 * (n * DIGEST_BYTES) :=
            ih (n * DIGEST_BYTES) ls₂ s₂ (by omega) hrec
          unfold DIGEST_BYTES at *
          calc (n * 32 + s₂) * q + 1024 = n * 32 * q + (s₂ * q + 1024) := by ring
            _ ≤ n * 32 * q + 32 * (n * 32) := by omega
            _ = 32 * (n * (q + 32)) := by ring
            _ = 32 * (n * ps) := by rw [← hq]
            _ ≤ 32 * remain := by omega

/-- Master geometry bound: with `N = (max_mem + page_table_size) / page_size`
the number of pages, `N * (page_size - 32) + 32 ≤ max_mem`.  This is the
fact that makes the self-referential page table work: the digest entry of
page `i` always lies at or beyond the start of page `i + 1`. -/
theorem ptLoop_master (ps q pta : Nat) (hq : ps = q + 32) (hq0 : 0 < q)
    (fuel : Nat) (ls : List Nat) (s : Nat) (hge : ps ≤ pta)
    (h : ptLoop ps fuel pta = some (ls, s)) :
    ((pta + s) / ps) * q + 32 ≤ pta := by
  obtain ⟨T, hT⟩ := ptLoop_s_mul32 ps fuel pta ls s h
  have hts : s * q + 1024 ≤ 32 * pta := ptLoop_ts_bound ps q hq hq0 fuel pta ls s hge h
  set N := (pta + s) / ps with hN
  have hNps : N * ps ≤ pta + s := by
    rw [hN]
    exact Nat.div_mul_le_self (pta + s) ps
  unfold DIGEST_BYTES at hT
  by_cases hcase : N ≤ T
  · have h1 : 32 * (T * q) + 1024 ≤ 32 * pta := by
      calc 32 * (T * q) + 1024 = s * q + 1024 := by rw [hT]; ring
        _ ≤ 32 * pta := hts
    have h2 : T * q + 32 ≤ pta := by omega
    have h3 : N * q ≤ T * q := Nat.mul_le_mul_right q hcase
    omega
  · have h1 : N * q + 32 * N ≤ pta + 32 * T := by
      calc N * q + 32 * N = N * (q + 32) := by ring
        _ = N * ps := by rw [← hq]
        _ ≤ pta + s := hNps
        _ = pta + 32 * T := by rw [hT]
    have h2 : T + 1 ≤ N := by omega
    omega

/-- Entry-ordering property: the digest entry of page `i` lies at or beyond
the start of page `i + 1`. -/
theorem ptLoop_entry_order (ps q pta : Nat) (hq : ps = q + 32) (hq0 : 0 < q)
    (fuel : Nat) (ls : List Nat) (s : Nat) (hge : ps ≤ pta)
    (h : ptLoop ps fuel pta = some (ls, s)) :
    ∀ i, i + 1 ≤ (pta + s) / ps → (i + 1) * ps ≤ pta + 32 * i := by
  intro i hi
  have hmaster := ptLoop_master ps q pta hq hq0 fuel ls s hge h
  have h1 : (i + 1) * q ≤ ((pta + s) / ps) * q := Nat.mul_le_mul_right q hi
  have h2 : (i + 1) * ps = (i + 1) * q + 32 * (i + 1) := by rw [hq]; ring
  omega

/-- C3 (amended): for every page size `p > 32` (the digest size) and ceiling
`m ≥ p`, the layer loop of `PageTableInfo::new` terminates with fuel `m + 1`
and the computed layer sizes are strictly decreasing; and whenever the
constructor's `assert_eq!(root_idx, num_pages)` passes — i.e. whenever
`PageTableInfo::new` returns at all — the returned `root_idx` equals
`num_pages`.  The unrestricted claim is false: at `page_size ≤ 32` the loop
need not terminate, and the assertion itself can fail (see the
counterexample at `(31744, 1024)`). -/
theorem c3_amended (pta ps : Nat) (hps : 32 < ps) (hge : ps ≤ pta) :
    (ptLoop ps (pta + 1) pta).isSome = true ∧
      (∀ ls s, ptLoop ps (pta + 1) pta = some (ls, s) →
        List.Chain' (fun a b => b < a) ls) ∧
      (∀ info, ptInfoNew pta ps = some info → info.root_idx = info.num_pages) := by
  refine ⟨ptLoop_terminates ps hps (pta + 1) pta (by omega),
    fun ls s h => ptLoop_layers_decreasing ps hps (pta + 1) pta ls s h,
    fun info h => ?_⟩
  unfold ptInfoNew at h
  rw [if_neg (by omega), if_neg (by omega)] at h
  cases hloop : ptLoop ps (pta + 1) pta with
  | none => rw [hloop] at h; exact absurd h (by simp)
  | some v =>
    cases v with
    | mk layers pts =>
      rw [hloop] at h
      simp only at h
      split at h
      · rename_i heq
        injection h with h
        rw [← h]
        simpa using heq
      · exact absurd h (by simp)

/-- Witness for the amended C3 at the concrete geometry `(0x1A00, 1024)`. -/
theorem c3_amended_witness :
    (ptLoop 1024 (0x1A00 + 1) 0x1A00).isSome = true ∧
      (∀ ls s, ptLoop 1024 (0x1A00 + 1) 0x1A00 = some (ls, s) →
        List.Chain' (fun a b => b < a) ls) ∧
      (∀ info, ptInfoNew 0x1A00 1024 = some info →
        info.root_idx = info.num_pages) :=
  c3_amended 0x1A00 1024 (by decide) (by decide)

/-! ## Constraint interpreter (`PolyExtStep`, src/risc0/zkp/src/adapter.rs)

The extension field `F::ExtElem` is modelled by an arbitrary commutative
ring `R`; `from_subfield`/`from_u64` lift base values, modelled by `Nat.cast`
for constants and by ambient `R` values for globals.  Rust `Vec` indexing
panics out of bounds, modelled by `Option`. -/

/-- Structure `MixState { tot, mul }`. -/
structure MixState (R : Type) where
  tot : R
  mul : R
deriving DecidableEq, Repr

/-- The `PolyExtStep` bytecode. -/
inductive PolyExtStep where
  | Const (value : Nat)
  | Get (tap : Nat)
  | GetGlobal (base : Nat) (offset : Nat)
  | Add (x1 : Nat) (x2 : Nat)
  | Sub (x1 : Nat) (x2 : Nat)
  | Mul (x1 : Nat) (x2 : Nat)
  | True
  | AndEqz (x : Nat) (val : Nat)
  | AndCond (x : Nat) (cond : Nat) (inner : Nat)
deriving DecidableEq, Repr

/-- Model of `PolyExtStep::step`: evaluate one bytecode op, pushing onto `fp_vars` or
`mix_vars`.  `none` models an out-of-bounds `Vec` index panic. -/
def polyExtStep {R : Type} [CommRing R] (op : PolyExtStep)
    (fp_vars : List R) (mix_vars : List (MixState R)) (mix : R)
    (u : List R) (args : List (List R)) :
    Option (List R × List (MixState R)) :=
  match op with
  | .Const value => some (fp_vars ++ [(value : R)], mix_vars)
  | .Get tap =>
    match u[tap]? with
    | none => none
    | some v => some (fp_vars ++ [v], mix_vars)
  | .GetGlobal base offset =>
    match args[base]? with
    | none => none
    | some column =>
      match column[offset]? with
      | none => none
      | some v => some (fp_vars ++ [v], mix_vars)
  | .Add x1 x2 =>
    match fp_vars[x1]?, fp_vars[x2]? with
    | some a, some b => some (fp_vars ++ [a + b], mix_vars)
    | _, _ => none
  | .Sub x1 x2 =>
    match fp_vars[x1]?, fp_vars[x2]? with
    | some a, some b => some (fp_vars ++ [a - b], mix_vars)
    | _, _ => none
  | .Mul x1 x2 =>
    match fp_vars[x1]?, fp_vars[x2]? with
    | some a, some b => some (fp_vars ++ [a * b], mix_vars)
    | _, _ => none
  | .True => some (fp_vars, mix_vars ++ [⟨0, 1⟩])
  | .AndEqz x val =>
    match mix_vars[x]?, fp_vars[val]? with
    | some xs, some v =>
      some (fp_vars, mix_vars ++ [⟨xs.tot + xs.mul * v, xs.mul * mix⟩])
    | _, _ => none
  | .AndCond x cond inner =>
    match mix_vars[x]?, fp_vars[cond]?, mix_vars[inner]? with
    | some xs, some c, some inn =>
      some (fp_vars, mix_vars ++ [⟨xs.tot + c * inn.tot * xs.mul, xs.mul * inn.mul⟩])
    | _, _, _ => none

/-- C4: evaluating `AndEqz(x, val)` on a mix accumulator `(tot, mul)` and a
field value `v` pushes exactly `(tot + mul * v, mul * mix)` onto the mix
register file (leaving `fp_vars` unchanged), and when `v = 0` the pushed
`tot` component equals the input `tot`. -/
theorem c4_and_eqz {R : Type} [CommRing R] (fp_vars : List R)
    (mix_vars : List (MixState R)) (mix : R) (u : List R)
    (args : List (List R)) (x val : Nat) (tot mul v : R)
    (hx : mix_vars[x]? = some ⟨tot, mul⟩) (hv : fp_vars[val]? = some v) :
    polyExtStep (.AndEqz x val) fp_vars mix_vars mix u args =
        some (fp_vars, mix_vars ++ [⟨tot + mul * v, mul * mix⟩]) ∧
      (v = 0 → tot + mul * v = tot) := by
  constructor
  · unfold polyExtStep
    dsimp only
    rw [hx, hv]
  · intro hv0
    rw [hv0]
    ring

/-- Witness for C4 over `R = ℤ`: `AndEqz 0 0` on `fp_vars = [0]`,
`mix_vars = [(3, 5)]`, `mix = 7` pushes `(3 + 5 * 0, 5 * 7) = (3, 35)`,
leaving `tot` unchanged on the zero value. -/
theorem c4_and_eqz_witness :
    polyExtStep (R := ℤ) (.AndEqz 0 0) [0] [⟨3, 5⟩] 7 [] [] =
        some ([0], [⟨3, 5⟩, ⟨3 + 5 * 0, 5 * 7⟩]) ∧
      ((0 : ℤ) = 0 → (3 : ℤ) + 5 * 0 = 3) :=
  c4_and_eqz [0] [⟨3, 5⟩] 7 [] [] 0 0 3 5 0 rfl rfl

/-! ## External hash primitive

The spec treats the SHA-256 compression primitive as an external black box
(`sha::Impl::compress`, `SHA256_INIT`); the image theorems are stated over an
arbitrary `HashFn`, and a concrete FIPS 180-4 compression function is
provided for witnesses and counterexamples. -/

set_option maxRecDepth 40000

/-- An external block-compression hash: an initial 32-byte state and a
compression function taking a state and the two 32-byte halves of a block. -/
structure HashFn where
  init : List Nat
  compress : List Nat → List Nat → List Nat → List Nat

/-- Chunk splitter with an explicit structural fuel (`l.length` always
suffices, since every step drops at least one element). -/
def chunksEAux (n : Nat) : Nat → List Nat → List (List Nat)
  | 0, _ => []
  | fuel + 1, l =>
    if n = 0 ∨ l.length < n then []
    else l.take n :: chunksEAux n fuel (l.drop n)

/-- Split a list into its consecutive exact chunks of `n` elements
(`chunks_exact`): a trailing remainder shorter than `n` is dropped. -/
def chunksE (n : Nat) (l : List Nat) : List (List Nat) :=
  chunksEAux n l.length l

/-- Model of `hash_page`: assert the page length is a multiple of the block size,
then fold the compression over the 64-byte blocks from the initial state
(`none` = the failed `assert!`). -/
def hash_page (h : HashFn) (page : List Nat) : Option (List Nat) :=
  if page.length % BLOCK_BYTES = 0 then
    some ((chunksE BLOCK_BYTES page).foldl
      (fun st blk => h.compress st (blk.take DIGEST_BYTES) (blk.drop DIGEST_BYTES))
      h.init)
  else none

/-- Modelled from the spec: 32-bit right rotation, for the external SHA-256
compression function. -/
def rotr32 (x n : Nat) : Nat := ((x >>> n) ||| (x <<< (32 - n))) % 2^32

/-- Modelled from the spec: FIPS 180-4 `Σ₀`. -/
def bsig0 (x : Nat) : Nat := (rotr32 x 2) ^^^ (rotr32 x 13) ^^^ (rotr32 x 22)

/-- Modelled from the spec: FIPS 180-4 `Σ₁`. -/
def bsig1 (x : Nat) : Nat := (rotr32 x 6) ^^^ (rotr32 x 11) ^^^ (rotr32 x 25)

/-- Modelled from the spec: FIPS 180-4 `σ₀`. -/
def ssig0 (x : Nat) : Nat := (rotr32 x 7) ^^^ (rotr32 x 18) ^^^ (x >>> 3)

/-- Modelled from the spec: FIPS 180-4 `σ₁`. -/
def ssig1 (x : Nat) : Nat := (rotr32 x 17) ^^^ (rotr32 x 19) ^^^ (x >>> 10)

/-- Modelled from the spec: the FIPS 180-4 round constants. -/
def SHA256_K : List Nat :=
  [1116352408, 1899447441, 3049323471, 3921009573, 961987163, 1508970993,
   2453635748, 2870763221, 3624381080, 310598401, 607225278, 1426881987,
   1925078388, 2162078206, 2614888103, 3248222580, 3835390401, 4022224774,
   264347078, 604807628, 770255983, 1249150122, 1555081692, 1996064986,
   2554220882, 2821834349, 2952996808, 3210313671, 3336571891, 3584528711,
   113926993, 338241895, 666307205, 773529912, 1294757372, 1396182291,
   1695183700, 1986661051, 2177026350, 2456956037, 2730485921, 2820302411,
   3259730800, 3345764771, 3516065817, 3600352804, 4094571909, 275423344,
   430227734, 506948616, 659060556, 883997877, 958139571, 1322822218,
   1537002063, 1747873779, 1955562222, 2024104815, 2227730452, 2361852424,
   2428436474, 2756734187, 3204031479, 3329325298]

/-- Modelled from the spec: the FIPS 180-4 initial state `SHA256_INIT`, as
eight 32-bit words. -/
def SHA256_INIT_WORDS : List Nat :=
  [1779033703, 3144134277, 1013904242, 2773480762,
   1359893119, 2600822924, 528734635, 1541459225]

/-- Modelled from the spec: extend the 16 message-schedule words by `n`
further words. -/
def shaExtend (w : List Nat) : Nat → List Nat
  | 0 => w
  | n + 1 =>
    let w' := shaExtend w n
    let m := w'.length
    w' ++ [(ssig1 (w'.getD (m - 2) 0) + w'.getD (m - 7) 0 +
      ssig0 (w'.getD (m - 15) 0) + w'.getD (m - 16) 0) % 2^32]

/-- Modelled from the spec: one FIPS 180-4 round on the eight working words. -/
def shaRound (st : List Nat) (kw : Nat × Nat) : List Nat :=
  match st with
  | [a, b, c, d, e, f, g, hh] =>
    let ch := (e &&& f) ^^^ ((e ^^^ 0xffffffff) &&& g)
    let t1 := (hh + bsig1 e + ch + kw.1 + kw.2) % 2^32
    let maj := (a &&& b) ^^^ (a &&& c) ^^^ (b &&& c)
    let t2 := (bsig0 a + maj) % 2^32
    [(t1 + t2) % 2^32, a, b, c, (d + t1) % 2^32, e, f, g]
  | other => other

/-- Modelled from the spec: the FIPS 180-4 compression function on eight
state words and sixteen block words. -/
def shaCompressWords (state block : List Nat) : List Nat :=
  let w := shaExtend block 48
  let final := (SHA256_K.zip w).foldl shaRound state
  (state.zip final).map (fun p => (p.1 + p.2) % 2^32)

/-- A 32-bit word as its four little-endian bytes (also `u32::to_le_bytes`). -/
def wordToBytesLE (w : Nat) : List Nat :=
  [w % 256, w / 256 % 256, w / 65536 % 256, w / 16777216 % 256]

/-- A little-endian byte quadruple as a 32-bit word. -/
def wordLE (b : List Nat) : Nat :=
  b.getD 0 0 + 256 * b.getD 1 0 + 65536 * b.getD 2 0 + 16777216 * b.getD 3 0

/-- Bytes to 32-bit words, little-endian, as the platform `Digest` stores
them. -/
def bytesToWordsLE (l : List Nat) : List Nat := (chunksE 4 l).map wordLE

/-- Words back to little-endian bytes. -/
def wordsToBytesLE (ws : List Nat) : List Nat :=
  ws.foldr (fun w acc => wordToBytesLE w ++ acc) []

/-- Modelled from the spec: the external SHA-256 compression primitive over
byte strings, packing bytes into words little-endian as the platform
`Digest` type does. -/
def shaCompress (state blk1 blk2 : List Nat) : List Nat :=
  wordsToBytesLE (shaCompressWords (bytesToWordsLE state)
    (bytesToWordsLE (blk1 ++ blk2)))

/-- Modelled from the spec: the concrete external hash primitive
(`SHA256_INIT`, `sha::Impl::compress`). -/
def shaHashFn : HashFn := ⟨wordsToBytesLE SHA256_INIT_WORDS, shaCompress⟩

/-! ## Memory image (`MemoryImage`, src/risc0/zkvm/src/binfmt/image.rs)

`MEM_SIZE` and `PAGE_TABLE.start()` come from the external
`risc0_zkvm_platform` crate; modelled from the spec ("memory layout
constants ... supplied as configuration, not computed here") as the
parameters `memSize` and `ptAddr`. -/

/-- An image of a zkVM guest's memory: flat byte buffer plus geometry. -/
structure MemImg where
  buf : List Nat
  info : PTInfo
deriving DecidableEq, Repr

/-- How `MemoryImage::new` fails: `capacity` is the returned
`anyhow` error "Invalid Elf Program, address outside MEM_SIZE"
(recoverable); `fatal` is a panic (failed assert or out-of-bounds slice). -/
inductive ImgErr where
  | capacity
  | fatal
deriving DecidableEq, Repr

/-- The program-word copy loop of `MemoryImage::new`: each word is written
to `buf[addr..addr+4]` in little-endian order; `get_mut` returning `None`
is the recoverable capacity error. -/
def storeWords : List (Nat × Nat) → List Nat → Except ImgErr (List Nat)
  | [], buf => .ok buf
  | kv :: rest, buf =>
    if kv.1 + 4 ≤ buf.length then
      storeWords rest (splice buf kv.1 (wordToBytesLE kv.2))
    else .error .capacity

/-- One iteration of `hash_pages`: hash page `i` and write its digest into
the page's entry slot.  `none` models an out-of-bounds slice panic, the
`hash_page` assert, or a `copy_from_slice` length mismatch. -/
def hashPageStep (h : HashFn) (info : PTInfo) (buf : List Nat) (i : Nat) :
    Option (List Nat) :=
  let pa := i * info.page_size
  if pa + info.page_size ≤ buf.length then
    match hash_page h (sliceL buf pa info.page_size) with
    | none => none
    | some d =>
      let ea := info.page_table_addr + i * DIGEST_BYTES
      if ea + DIGEST_BYTES ≤ buf.length ∧ d.length = DIGEST_BYTES then
        some (splice buf ea d)
      else none
  else none

/-- The `for i in 0..num_pages` loop of `hash_pages`, with `n` iterations
left and current page index `i`. -/
def hashPagesAux (h : HashFn) (info : PTInfo) :
    Nat → Nat → List Nat → Option (List Nat)
  | 0, _, buf => some buf
  | n + 1, i, buf =>
    match hashPageStep h info buf i with
    | none => none
    | some buf' => hashPagesAux h info n (i + 1) buf'

/-- Model of `MemoryImage::hash_pages`. -/
def hashPages (h : HashFn) (info : PTInfo) (buf : List Nat) :
    Option (List Nat) :=
  hashPagesAux h info info.num_pages 0 buf

/-- Model of `MemoryImage::new(program, page_size)` with the platform configuration
constants `memSize = MEM_SIZE` and `ptAddr = PAGE_TABLE.start()` as
parameters. -/
def memImgNew (h : HashFn) (memSize ptAddr : Nat) (program : Program)
    (page_size : Nat) : Except ImgErr MemImg :=
  match storeWords program.image (List.replicate memSize 0) with
  | .error e => .error e
  | .ok buf =>
    match ptInfoNew ptAddr page_size with
    | none => .error .fatal
    | some info =>
      match hashPages h info buf with
      | none => .error .fatal
      | some buf' => .ok ⟨buf', info⟩

/-- Model of `MemoryImage::get_root`: hash the root page `buf[root_page_addr ..
root_addr]` afresh. -/
def getRoot (h : HashFn) (img : MemImg) : Option (List Nat) :=
  if img.info.root_page_addr ≤ img.info.root_addr ∧
      img.info.root_addr ≤ img.buf.length then
    hash_page h (sliceL img.buf img.info.root_page_addr
      (img.info.root_addr - img.info.root_page_addr))
  else none

/-- The `while page_idx < root_idx` walk of `MemoryImage::check`:
`some true` = the walk reached the root with every recomputed digest equal
to its stored entry, `some false` = a mismatch (the recoverable
`IntegrityError`), `none` = a panic (bad slice / assert / exhausted fuel). -/
def checkLoop (h : HashFn) (info : PTInfo) (buf : List Nat) :
    Nat → Nat → Option Bool
  | 0, page_idx => if page_idx < info.root_idx then none else some true
  | fuel + 1, page_idx =>
    if page_idx < info.root_idx then
      let pa := page_idx * info.page_size
      if pa + info.page_size ≤ buf.length then
        match hash_page h (sliceL buf pa info.page_size) with
        | none => none
        | some expected =>
          let ea := info.page_table_addr + page_idx * DIGEST_BYTES
          if ea + DIGEST_BYTES ≤ buf.length then
            if expected = sliceL buf ea DIGEST_BYTES then
              checkLoop h info buf fuel (ea / info.page_size)
            else some false
          else none
      else none
    else some true

/-- Model of `MemoryImage::check(addr)`: the upward walk followed by the root-page
digest comparison against `get_root()`. -/
def checkImg (h : HashFn) (img : MemImg) (addr : Nat) : Option Bool :=
  match checkLoop h img.info img.buf (img.info.root_idx + 1)
      (addr / img.info.page_size) with
  | none => none
  | some false => some false
  | some true =>
    let rpa := img.info.root_page_addr
    let rpb := img.info.num_root_entries * DIGEST_BYTES
    if rpa + rpb ≤ img.buf.length then
      match hash_page h (sliceL img.buf rpa rpb) with
      | none => none
      | some expected =>
        match getRoot h img with
        | none => none
        | some root => if expected = root then some true else some false
    else none

/-! ### Invariants of `hash_pages`

The central fact is the entry-ordering property `(k+1) * page_size ≤
page_table_addr + k * DIGEST_BYTES` (from `ptLoop_entry_order`): the digest
entry of page `k` lies at or beyond the start of page `k + 1`, so hashing
pages in increasing order freezes every page before its digest is stored,
and the stored entries equal the digests of the final page contents. -/

theorem hash_page_some_length {h : HashFn} {page d : List Nat}
    (hp : hash_page h page = some d) : page.length % BLOCK_BYTES = 0 := by
  unfold hash_page at hp
  split at hp
  · assumption
  · exact absurd hp (by simp)

theorem hashPageStep_elim {h : HashFn} {info : PTInfo} {buf buf₁ : List Nat}
    {i : Nat} (hs : hashPageStep h info buf i = some buf₁) :
    ∃ d, i * info.page_size + info.page_size ≤ buf.length ∧
      hash_page h (sliceL buf (i * info.page_size) info.page_size) = some d ∧
      info.page_table_addr + i * DIGEST_BYTES + DIGEST_BYTES ≤ buf.length ∧
      d.length = DIGEST_BYTES ∧
      buf₁ = splice buf (info.page_table_addr + i * DIGEST_BYTES) d := by
  unfold hashPageStep at hs
  dsimp only at hs
  split at hs
  · rename_i hpa
    split at hs
    · exact absurd hs (by simp)
    · rename_i d hd
      split at hs
      · rename_i hcond
        injection hs with hs
        exact ⟨d, hpa, hd, hcond.1, hcond.2, hs.symm⟩
      · exact absurd hs (by simp)
  · exact absurd hs (by simp)

theorem hashPageStep_intro (h : HashFn) (info : PTInfo) (buf : List Nat)
    (i : Nat) (d : List Nat)
    (hpa : i * info.page_size + info.page_size ≤ buf.length)
    (hd : hash_page h (sliceL buf (i * info.page_size) info.page_size) = some d)
    (hea : info.page_table_addr + i * DIGEST_BYTES + DIGEST_BYTES ≤ buf.length)
    (hdlen : d.length = DIGEST_BYTES) :
    hashPageStep h info buf i =
      some (splice buf (info.page_table_addr + i * DIGEST_BYTES) d) := by
  unfold hashPageStep
  dsimp only
  rw [if_pos hpa, hd]
  dsimp only
  rw [if_pos ⟨hea, hdlen⟩]

/-- Behaviour of a successful `hash_pages` run over pages `i..i+n`: the
buffer keeps its length, every position below the entry slot of page `i` is
untouched, and afterwards the stored entry of each processed page is the
digest of that page's final contents. -/
theorem hashPagesAux_spec (h : HashFn) (info : PTInfo) :
    ∀ n i buf buf',
      hashPagesAux h info n i buf = some buf' →
      (∀ k, i ≤ k → k < i + n →
        (k + 1) * info.page_size ≤ info.page_table_addr + k * DIGEST_BYTES) →
      buf'.length = buf.length ∧
      (∀ p, p < info.page_table_addr + i * DIGEST_BYTES → buf'[p]? = buf[p]?) ∧
      (∀ k, i ≤ k → k < i + n →
        k * info.page_size + info.page_size ≤ buf'.length ∧
        info.page_table_addr + k * DIGEST_BYTES + DIGEST_BYTES ≤ buf'.length ∧
        ∃ d, hash_page h (sliceL buf' (k * info.page_size) info.page_size) =
            some d ∧
          d.length = DIGEST_BYTES ∧
          sliceL buf' (info.page_table_addr + k * DIGEST_BYTES) DIGEST_BYTES =
            d) := by
  have hD : DIGEST_BYTES = 32 := rfl
  intro n
  induction n with
  | zero =>
    intro i buf buf' hres hord
    injection hres with hres
    subst hres
    exact ⟨rfl, fun p _ => rfl, fun k hk1 hk2 => absurd hk2 (by omega)⟩
  | succ n ih =>
    intro i buf buf' hres hord
    unfold hashPagesAux at hres
    cases hstep : hashPageStep h info buf i with
    | none => rw [hstep] at hres; exact absurd hres (by simp)
    | some buf₁ =>
      rw [hstep] at hres
      obtain ⟨d, hpa, hhash, hea, hdlen, hbuf₁⟩ := hashPageStep_elim hstep
      subst hbuf₁
      have hlen₁ :
          (splice buf (info.page_table_addr + i * DIGEST_BYTES) d).length =
            buf.length :=
        splice_length _ _ _ (by rw [hdlen, hD]; rw [hD] at hea; omega)
      obtain ⟨ihlen, ihfrozen, ihfacts⟩ :=
        ih (i + 1) _ buf' hres (fun k hk1 hk2 => hord k (by omega) (by omega))
      have hordi := hord i (Nat.le_refl i) (by omega)
      have hexp1 : (i + 1) * info.page_size =
          i * info.page_size + info.page_size := by ring
      simp only [hD] at hordi hpa hea hdlen hlen₁ ihlen ihfrozen ihfacts ⊢
      refine ⟨by rw [ihlen, hlen₁], ?_, ?_⟩
      · intro p hp
        rw [ihfrozen p (by omega)]
        exact splice_getElem?_outside _ _ _ (by omega) p (Or.inl (by omega))
      · intro k hk1 hk2
        by_cases hki : k = i
        · subst hki
          have hs1 : sliceL buf' (k * info.page_size) info.page_size =
              sliceL (splice buf (info.page_table_addr + k * 32) d)
                (k * info.page_size) info.page_size :=
            sliceL_congr _ _ (fun p hp1 hp2 => ihfrozen p (by omega))
          have hs2 : sliceL (splice buf (info.page_table_addr + k * 32) d)
                (k * info.page_size) info.page_size =
              sliceL buf (k * info.page_size) info.page_size :=
            sliceL_congr _ _ (fun p hp1 hp2 =>
              splice_getElem?_outside _ _ _ (by omega) p (Or.inl (by omega)))
          have he1 : sliceL buf' (info.page_table_addr + k * 32) 32 =
              sliceL (splice buf (info.page_table_addr + k * 32) d)
                (info.page_table_addr + k * 32) 32 :=
            sliceL_congr _ _ (fun p hp1 hp2 => ihfrozen p (by omega))
          have he2 : sliceL (splice buf (info.page_table_addr + k * 32) d)
                (info.page_table_addr + k * 32) d.length = d :=
            sliceL_splice_self _ _ _ (by omega)
          rw [hdlen] at he2
          refine ⟨by omega, by omega, d, ?_, hdlen, by rw [he1, he2]⟩
          rw [hs1, hs2]
          exact hhash
        · exact ihfacts k (by omega) (by omega)

/-- A buffer whose stored entries already equal the digests of its pages is
a fixed point of `hash_pages`. -/
theorem hashPagesAux_fixed (h : HashFn) (info : PTInfo) :
    ∀ n i buf,
      (∀ k, i ≤ k → k < i + n →
        k * info.page_size + info.page_size ≤ buf.length ∧
        info.page_table_addr + k * DIGEST_BYTES + DIGEST_BYTES ≤ buf.length ∧
        ∃ d, hash_page h (sliceL buf (k * info.page_size) info.page_size) =
            some d ∧
          d.length = DIGEST_BYTES ∧
          sliceL buf (info.page_table_addr + k * DIGEST_BYTES) DIGEST_BYTES =
            d) →
      hashPagesAux h info n i buf = some buf := by
  intro n
  induction n with
  | zero => intro i buf _; rfl
  | succ n ih =>
    intro i buf hfacts
    obtain ⟨hpa, hea, d, hhash, hdlen, hentry⟩ :=
      hfacts i (Nat.le_refl i) (by omega)
    have hstep : hashPageStep h info buf i = some buf := by
      rw [hashPageStep_intro h info buf i d hpa hhash hea hdlen]
      congr 1
      apply splice_eq_self _ _ _ (by omega)
      rw [hdlen]
      exact hentry
    unfold hashPagesAux
    rw [hstep]
    exact ih (i + 1) buf (fun k hk1 hk2 => hfacts k (by omega) (by omega))

/-! ### Word placement, geometry extraction and the integrity walk -/

theorem wordToBytesLE_length (w : Nat) : (wordToBytesLE w).length = 4 := rfl

theorem storeWords_ok_elim :
    ∀ kvs (buf buf' : List Nat), storeWords kvs buf = .ok buf' →
      buf'.length = buf.length ∧
      (∀ p, (∀ kv ∈ kvs, p < kv.1 ∨ kv.1 + 4 ≤ p) → buf'[p]? = buf[p]?) := by
  intro kvs
  induction kvs with
  | nil =>
    intro buf buf' hres
    injection hres with hres
    subst hres
    exact ⟨rfl, fun p _ => rfl⟩
  | cons kv rest ih =>
    intro buf buf' hres
    unfold storeWords at hres
    split at hres
    · rename_i hfit
      obtain ⟨ihlen, ihout⟩ := ih _ buf' hres
      have hsplen : (splice buf kv.1 (wordToBytesLE kv.2)).length = buf.length :=
        splice_length _ _ _ (by rw [wordToBytesLE_length]; omega)
      refine ⟨by rw [ihlen, hsplen], fun p hp => ?_⟩
      rw [ihout p (fun kv' hkv' => hp kv' (by simp [hkv']))]
      have := hp kv (by simp)
      exact splice_getElem?_outside _ _ _
        (by rw [wordToBytesLE_length]; omega) p
        (by rw [wordToBytesLE_length]; omega)
    · exact absurd hres (by simp)

theorem storeWords_capacity_iff :
    ∀ kvs (buf : List Nat),
      storeWords kvs buf = .error .capacity ↔
        ∃ kv ∈ kvs, buf.length < kv.1 + 4 := by
  intro kvs
  induction kvs with
  | nil =>
    intro buf
    constructor
    · intro h; exact absurd h (by simp [storeWords])
    · intro ⟨kv, hkv, _⟩; exact absurd hkv (by simp)
  | cons kv rest ih =>
    intro buf
    unfold storeWords
    by_cases hfit : kv.1 + 4 ≤ buf.length
    · rw [if_pos hfit]
      have hsplen : (splice buf kv.1 (wordToBytesLE kv.2)).length = buf.length :=
        splice_length _ _ _ (by rw [wordToBytesLE_length]; omega)
      rw [ih]
      constructor
      · intro ⟨kv', hkv', hv⟩
        exact ⟨kv', by simp [hkv'], by omega⟩
      · intro ⟨kv', hkv', hv⟩
        simp at hkv'
        rcases hkv' with hkv' | hkv'
        · subst hkv'; omega
        · exact ⟨kv', hkv', by omega⟩
    · rw [if_neg hfit]
      exact ⟨fun _ => ⟨kv, by simp, by omega⟩, fun _ => rfl⟩

theorem storeWords_never_fatal :
    ∀ kvs (buf : List Nat), storeWords kvs buf ≠ .error .fatal := by
  intro kvs
  induction kvs with
  | nil => intro buf h; exact absurd h (by simp [storeWords])
  | cons kv rest ih =>
    intro buf h
    unfold storeWords at h
    split at h
    · exact ih _ h
    · injection h with h
      exact absurd h (by simp)

/-- After a successful `storeWords` over pairwise-disjoint word regions,
each word sits at its address in little-endian byte order. -/
theorem storeWords_words :
    ∀ kvs (buf buf' : List Nat), storeWords kvs buf = .ok buf' →
      List.Pairwise (fun a b : Nat × Nat => a.1 + 4 ≤ b.1) kvs →
      ∀ kv ∈ kvs, sliceL buf' kv.1 4 = wordToBytesLE kv.2 := by
  intro kvs
  induction kvs with
  | nil => intro buf buf' _ _ kv hkv; exact absurd hkv (by simp)
  | cons kv0 rest ih =>
    intro buf buf' hres hpw kv hkv
    unfold storeWords at hres
    split at hres
    · rename_i hfit
      rw [List.pairwise_cons] at hpw
      rcases List.mem_cons.1 hkv with hkv | hkv
      · subst hkv
        have hw : sliceL (splice buf kv.1 (wordToBytesLE kv.2)) kv.1
            (wordToBytesLE kv.2).length = wordToBytesLE kv.2 :=
          sliceL_splice_self _ _ _ (by rw [wordToBytesLE_length]; omega)
        rw [wordToBytesLE_length] at hw
        have huntouched := (storeWords_ok_elim rest _ buf' hres).2
        rw [← hw]
        apply sliceL_congr
        intro p hp1 hp2
        exact huntouched p (fun kv' hkv' => Or.inl (by
          have := hpw.1 kv' hkv'
          omega))
      · exact ih _ buf' hres hpw.2 kv hkv
    · exact absurd hres (by simp)

/-- Positions not covered by any stored word keep their original byte. -/
theorem storeWords_zeros (kvs : List (Nat × Nat)) (memSize : Nat)
    (buf' : List Nat)
    (hres : storeWords kvs (List.replicate memSize 0) = .ok buf')
    (p : Nat) (hp : p < memSize)
    (hout : ∀ kv ∈ kvs, p < kv.1 ∨ kv.1 + 4 ≤ p) :
    buf'[p]? = some 0 := by
  rw [(storeWords_ok_elim kvs _ buf' hres).2 p hout,
    List.getElem?_replicate, if_pos hp]

/-- Structural description of a successful `PageTableInfo::new`. -/
theorem ptInfoNew_elim {pta ps : Nat} {info : PTInfo}
    (h : ptInfoNew pta ps = some info) :
    0 < ps ∧ ps ≤ pta ∧
      info.page_size = ps ∧ info.page_table_addr = pta ∧
      ∃ ls s, ptLoop ps (pta + 1) pta = some (ls, s) ∧
        info._page_table_size = roundUp s BLOCK_BYTES ∧
        info.root_addr = pta + roundUp s BLOCK_BYTES ∧
        info.root_idx = info.root_addr / ps ∧
        info.root_page_addr = info.root_idx * ps ∧
        info.num_pages = (pta + s) / ps ∧
        info.num_root_entries =
          (info.root_addr - info.root_page_addr) / DIGEST_BYTES ∧
        info.root_idx = info.num_pages := by
  unfold ptInfoNew at h
  split at h
  · exact absurd h (by simp)
  · split at h
    · exact absurd h (by simp)
    · rename_i hps0 hge
      cases hloop : ptLoop ps (pta + 1) pta with
      | none => rw [hloop] at h; exact absurd h (by simp)
      | some v =>
        cases v with
        | mk ls s =>
          rw [hloop] at h
          simp only at h
          split at h
          · rename_i heq
            injection h with h
            subst h
            exact ⟨by omega, by omega, rfl, rfl, ls, s, rfl, rfl, rfl,
              by simpa using heq.symm ▸ rfl, rfl, rfl, rfl, by simpa using heq⟩
          · exact absurd h (by simp)

/-- Decomposition of a successful `MemoryImage::new`. -/
theorem memImgNew_elim {h : HashFn} {memSize ptAddr : Nat} {prog : Program}
    {ps : Nat} {img : MemImg}
    (hres : memImgNew h memSize ptAddr prog ps = .ok img) :
    ∃ buf, storeWords prog.image (List.replicate memSize 0) = .ok buf ∧
      ptInfoNew ptAddr ps = some img.info ∧
      hashPages h img.info buf = some img.buf := by
  unfold memImgNew at hres
  cases hstore : storeWords prog.image (List.replicate memSize 0) with
  | error e => rw [hstore] at hres; exact absurd hres (by simp)
  | ok buf =>
    rw [hstore] at hres
    dsimp only at hres
    cases hinfo : ptInfoNew ptAddr ps with
    | none => rw [hinfo] at hres; exact absurd hres (by simp)
    | some info =>
      rw [hinfo] at hres
      dsimp only at hres
      cases hhp : hashPages h info buf with
      | none => rw [hhp] at hres; exact absurd hres (by simp)
      | some buf' =>
        rw [hhp] at hres
        injection hres with hres
        subst hres
        exact ⟨buf, rfl, rfl, hhp⟩

theorem hashPagesAux_first {h : HashFn} {info : PTInfo} {n i : Nat}
    {buf buf' : List Nat}
    (hr : hashPagesAux h info (n + 1) i buf = some buf') :
    ∃ buf₁, hashPageStep h info buf i = some buf₁ ∧
      hashPagesAux h info n (i + 1) buf₁ = some buf' := by
  unfold hashPagesAux at hr
  cases hstep : hashPageStep h info buf i with
  | none => rw [hstep] at hr; exact absurd hr (by simp)
  | some buf₁ =>
    rw [hstep] at hr
    exact ⟨buf₁, rfl, hr⟩

theorem hash_page_some_of_mod (h : HashFn) (page : List Nat)
    (hmod : page.length % BLOCK_BYTES = 0) :
    ∃ d, hash_page h page = some d := by
  unfold hash_page
  rw [if_pos hmod]
  exact ⟨_, rfl⟩

/-- The facts about a `MemoryImage` that a successful `MemoryImage::new`
establishes, bundled. -/
structure ImgFacts (h : HashFn) (memSize ptAddr : Nat) (prog : Program)
    (ps : Nat) (img : MemImg) : Prop where
  buf_len : img.buf.length = memSize
  ps_eq : img.info.page_size = ps
  pta_eq : img.info.page_table_addr = ptAddr
  root_eq_pages : img.info.root_idx = img.info.num_pages
  ps_pos : 0 < ps
  ps_le : ps ≤ ptAddr
  ps_mod : ps % 64 = 0
  root_pos : 0 < img.info.root_idx
  pts_dvd : (64 : Nat) ∣ img.info._page_table_size
  root_addr_eq : img.info.root_addr = ptAddr + img.info._page_table_size
  root_idx_eq : img.info.root_idx = img.info.root_addr / ps
  rpa_eq : img.info.root_page_addr = img.info.root_idx * ps
  nre_eq : img.info.num_root_entries =
    (img.info.root_addr - img.info.root_page_addr) / DIGEST_BYTES
  ord : ∀ k, k < img.info.root_idx →
    (k + 1) * ps ≤ ptAddr + k * DIGEST_BYTES
  pages : ∀ k, k < img.info.root_idx →
    k * ps + ps ≤ img.buf.length ∧
    ptAddr + k * DIGEST_BYTES + DIGEST_BYTES ≤ img.buf.length ∧
    ∃ d, hash_page h (sliceL img.buf (k * ps) ps) = some d ∧
      d.length = DIGEST_BYTES ∧
      sliceL img.buf (ptAddr + k * DIGEST_BYTES) DIGEST_BYTES = d
  store : ∃ buf, storeWords prog.image (List.replicate memSize 0) = .ok buf ∧
    ∀ p, p < ptAddr → img.buf[p]? = buf[p]?

/-- Everything `MemoryImage::new` guarantees on success. -/
theorem memImgNew_facts {h : HashFn} {memSize ptAddr : Nat} {prog : Program}
    {ps : Nat} {img : MemImg}
    (hres : memImgNew h memSize ptAddr prog ps = .ok img) :
    ImgFacts h memSize ptAddr prog ps img := by
  have hD : DIGEST_BYTES = 32 := rfl
  obtain ⟨buf, hstore, hinfo, hhp⟩ := memImgNew_elim hres
  obtain ⟨hps0, hge, hpseq, hptaeq, ls, s, hloop, hpts, hroota, hrootidx,
    hrpa, hnump, hnre, hrooteq⟩ := ptInfoNew_elim hinfo
  have hbuflen : buf.length = memSize := by
    have := (storeWords_ok_elim _ _ _ hstore).1
    rwa [List.length_replicate] at this
  -- at least one page
  have hnp1 : 1 ≤ img.info.num_pages := by
    rw [hnump]
    exact (Nat.one_le_div_iff hps0).2 (by omega)
  -- the first hashed page gives page_size % 64 = 0
  have hps64 : ps % 64 = 0 := by
    unfold hashPages at hhp
    obtain ⟨n', hn'⟩ : ∃ n', img.info.num_pages = n' + 1 :=
      ⟨img.info.num_pages - 1, by omega⟩
    rw [hn'] at hhp
    obtain ⟨buf₁, hstep, _⟩ := hashPagesAux_first hhp
    obtain ⟨d, hpa, hhash, _, _, _⟩ := hashPageStep_elim hstep
    have := hash_page_some_length hhash
    rw [sliceL_length _ _ _ (by rw [hpseq] at hpa ⊢; omega)] at this
    rw [hpseq] at this
    exact this
  have hps64' : 32 < ps := by omega
  -- entry ordering
  have hord : ∀ k, k < img.info.root_idx →
      (k + 1) * ps ≤ ptAddr + k * DIGEST_BYTES := by
    intro k hk
    have hk' : k + 1 ≤ (ptAddr + s) / ps := by
      rw [hrooteq, hnump] at hk
      omega
    have := ptLoop_entry_order ps (ps - 32) ptAddr (by omega) (by omega)
      (ptAddr + 1) ls s hge hloop k hk'
    simp only [hD]
    omega
  -- the hashed-pages facts
  have hspec := hashPagesAux_spec h img.info img.info.num_pages 0 buf img.buf
    hhp (by
      intro k hk1 hk2
      rw [hpseq, hptaeq]
      exact hord k (by omega))
  obtain ⟨hlenf, hfrozen, hfacts⟩ := hspec
  refine ⟨by omega, hpseq, hptaeq, hrooteq, by omega, by omega, hps64, by omega,
    ⟨(s + BLOCK_BYTES - 1) / BLOCK_BYTES, by
      rw [hpts]; unfold roundUp BLOCK_BYTES; ring⟩,
    by rw [hroota, hpts], hrootidx, hrpa,
    hnre, hord, ?_, buf, hstore, ?_⟩
  · intro k hk
    have := hfacts k (by omega) (by rw [hrooteq] at hk; omega)
    rw [hpseq, hptaeq] at this
    exact this
  · intro p hp
    exact hfrozen p (by rw [hptaeq]; omega)

/-- The upward walk of `check` succeeds from any starting page when every
page's stored entry matches its digest and entries always sit beyond the
next page boundary. -/
theorem checkLoop_ok (h : HashFn) (info : PTInfo) (buf : List Nat)
    (hps : 0 < info.page_size)
    (hfacts : ∀ k, k < info.root_idx →
      k * info.page_size + info.page_size ≤ buf.length ∧
      info.page_table_addr + k * DIGEST_BYTES + DIGEST_BYTES ≤ buf.length ∧
      ∃ d, hash_page h (sliceL buf (k * info.page_size) info.page_size) =
          some d ∧
        d.length = DIGEST_BYTES ∧
        sliceL buf (info.page_table_addr + k * DIGEST_BYTES) DIGEST_BYTES = d)
    (hord : ∀ k, k < info.root_idx →
      (k + 1) * info.page_size ≤ info.page_table_addr + k * DIGEST_BYTES) :
    ∀ fuel pi, info.root_idx + 1 ≤ fuel + pi →
      checkLoop h info buf fuel pi = some true := by
  intro fuel
  induction fuel with
  | zero =>
    intro pi hpi
    unfold checkLoop
    rw [if_neg (by omega)]
  | succ fuel ih =>
    intro pi hpi
    unfold checkLoop
    by_cases hlt : pi < info.root_idx
    case neg => rw [if_neg hlt]
    case pos =>
    rw [if_pos hlt]
    dsimp only
    obtain ⟨hpa, hea, d, hhash, hdlen, hentry⟩ := hfacts pi hlt
    rw [if_pos hpa, hhash]
    dsimp only
    rw [if_pos hea, hentry, if_pos rfl]
    apply ih
    have hordk := hord pi hlt
    have hdiv : pi + 1 ≤ (info.page_table_addr + pi * DIGEST_BYTES) /
        info.page_size :=
      (Nat.le_div_iff_mul_le hps).2 hordk
    omega

/-- Success test for `MemoryImage::new` results, used by concrete witnesses. -/
def isOkImg : Except ImgErr MemImg → Bool
  | .ok _ => true
  | _ => false

/-- C8: `hash_pages` is idempotent: on any image built by
`MemoryImage::new` (whose construction already ran `hash_pages` once),
running `hash_pages` again leaves the buffer — hence every page digest and
the root digest — unchanged. -/
theorem c8_hash_pages_idempotent (h : HashFn) (memSize ptAddr : Nat)
    (prog : Program) (ps : Nat) (img : MemImg)
    (hres : memImgNew h memSize ptAddr prog ps = .ok img) :
    hashPages h img.info img.buf = some img.buf := by
  have f := memImgNew_facts hres
  unfold hashPages
  apply hashPagesAux_fixed
  intro k hk1 hk2
  have hk : k < img.info.root_idx := by rw [f.root_eq_pages]; omega
  have := f.pages k hk
  rw [f.ps_eq, f.pta_eq]
  exact this

/-- Witness for C8 at a concrete one-page image hashed with SHA-256. -/
theorem c8_witness :
    (memImgNew shaHashFn 192 128 ⟨0, [(0, 287454020)]⟩ 128).map
      (fun img => decide
        (hashPages shaHashFn img.info img.buf = some img.buf)) = .ok true := by
  cases hres : memImgNew shaHashFn 192 128 ⟨0, [(0, 287454020)]⟩ 128 with
  | error e =>
    have hok : isOkImg (memImgNew shaHashFn 192 128 ⟨0, [(0, 287454020)]⟩ 128) =
        true := by decide
    rw [hres] at hok
    exact absurd hok (by simp [isOkImg])
  | ok img =>
    have hc := c8_hash_pages_idempotent shaHashFn 192 128 ⟨0, [(0, 287454020)]⟩
      128 img hres
    simp [Except.map, hc]

/-- C2: on any image built by a successful `MemoryImage::new` (for a
64-byte-aligned page-table base that fits in the buffer, as in the real
platform layout), the integrity walk `MemoryImage::check(addr)` succeeds
for every address: every recomputed page digest matches its stored
page-table entry up to the root page, and the recomputed root-page digest
equals `get_root()`. -/
theorem c2_integrity_walk (h : HashFn) (memSize ptAddr : Nat) (prog : Program)
    (ps : Nat) (img : MemImg)
    (hres : memImgNew h memSize ptAddr prog ps = .ok img)
    (hpta64 : (64 : Nat) ∣ ptAddr)
    (hroot : img.info.root_addr ≤ memSize) :
    ∀ addr, checkImg h img addr = some true := by
  have f := memImgNew_facts hres
  have hD : DIGEST_BYTES = 32 := rfl
  intro addr
  unfold checkImg
  rw [checkLoop_ok h img.info img.buf (by rw [f.ps_eq]; exact f.ps_pos)
    (fun k hk => by rw [f.ps_eq, f.pta_eq]; exact f.pages k hk)
    (fun k hk => by rw [f.ps_eq, f.pta_eq]; exact f.ord k hk)
    (img.info.root_idx + 1) (addr / img.info.page_size)
    (Nat.le_add_right _ _)]
  dsimp only
  have hrpale : img.info.root_page_addr ≤ img.info.root_addr := by
    rw [f.rpa_eq, f.root_idx_eq]
    exact Nat.div_mul_le_self _ _
  have h64ra : (64 : Nat) ∣ img.info.root_addr := by
    rw [f.root_addr_eq]
    exact Nat.dvd_add hpta64 f.pts_dvd
  have h64ps : (64 : Nat) ∣ ps := Nat.dvd_of_mod_eq_zero f.ps_mod
  have h64rpa : (64 : Nat) ∣ img.info.root_page_addr := by
    rw [f.rpa_eq]
    exact Dvd.dvd.mul_left h64ps _
  have h64d : (64 : Nat) ∣ (img.info.root_addr - img.info.root_page_addr) :=
    Nat.dvd_sub' h64ra h64rpa
  have h32d : (32 : Nat) ∣ (img.info.root_addr - img.info.root_page_addr) :=
    dvd_trans ⟨2, rfl⟩ h64d
  have hnre : img.info.num_root_entries * DIGEST_BYTES =
      img.info.root_addr - img.info.root_page_addr := by
    rw [f.nre_eq, hD]
    exact Nat.div_mul_cancel h32d
  have hbound : img.info.root_page_addr +
      img.info.num_root_entries * DIGEST_BYTES ≤ img.buf.length := by
    rw [hnre, f.buf_len]
    omega
  rw [if_pos hbound]
  have hmod : (sliceL img.buf img.info.root_page_addr
      (img.info.root_addr - img.info.root_page_addr)).length % BLOCK_BYTES =
        0 := by
    rw [sliceL_length _ _ _ (by rw [f.buf_len]; omega)]
    obtain ⟨c, hc⟩ := h64d
    rw [hc]
    simp [BLOCK_BYTES, Nat.mul_mod_right]
  obtain ⟨dd, hdd⟩ := hash_page_some_of_mod h _ hmod
  rw [hnre, hdd]
  dsimp only
  unfold getRoot
  rw [if_pos ⟨hrpale, by rw [f.buf_len]; omega⟩, hdd]
  dsimp only
  rw [if_pos rfl]

/-- Witness for C2: the concrete one-page SHA-256 image passes the
integrity walk at a loaded address and at an address beyond the root. -/
theorem c2_witness :
    (memImgNew shaHashFn 192 128 ⟨0, [(0, 287454020)]⟩ 128).map
      (fun img => (checkImg shaHashFn img 0, checkImg shaHashFn img 500)) =
      .ok (some true, some true) := by
  cases hres : memImgNew shaHashFn 192 128 ⟨0, [(0, 287454020)]⟩ 128 with
  | error e =>
    have hok : isOkImg (memImgNew shaHashFn 192 128 ⟨0, [(0, 287454020)]⟩ 128) =
        true := by decide
    rw [hres] at hok
    exact absurd hok (by simp [isOkImg])
  | ok img =>
    have hroot : img.info.root_addr ≤ 192 := by
      obtain ⟨buf, _, hinfo, _⟩ := memImgNew_elim hres
      rw [show ptInfoNew 128 128 = some ⟨128, 128, 64, 192, 1, 128, 1, 2, [32]⟩
        from by decide] at hinfo
      injection hinfo with hinfo
      rw [← hinfo]
    have hc := c2_integrity_walk shaHashFn 192 128 ⟨0, [(0, 287454020)]⟩ 128
      img hres ⟨2, rfl⟩ hroot
    simp [Except.map, hc 0, hc 500]

/-- C7 (counterexample): `MemoryImage::new` succeeds on the empty program,
yet the returned buffer is not "zeros elsewhere": `hash_pages` has written
the SHA-256 digest of the zero data page into the page-table entry at
address 128, whose first byte is 34, not 0. -/
theorem c7_counterexample :
    (memImgNew shaHashFn 192 128 ⟨0, []⟩ 128).map
        (fun img => img.buf[128]?) = .ok (some 34) ∧ (34 : Nat) ≠ 0 := by
  constructor
  · decide
  · decide

/-- C7 (amended): `MemoryImage::new` fails with the recoverable
`CapacityError` exactly when some program word would be written outside the
`MEM_SIZE` buffer (never silently truncating); on success, for a program
whose word regions are pairwise disjoint and lie below the page-table base,
every program word sits at its address in little-endian byte order, every
other byte below the page-table base is zero, and the page-table region
holds the page digests written by `hash_pages` (so the buffer is *not* zero
there, contrary to the original claim). -/
theorem c7_amended (h : HashFn) (memSize ptAddr : Nat) (prog : Program)
    (ps : Nat)
    (hdisj : List.Pairwise (fun a b : Nat × Nat => a.1 + 4 ≤ b.1) prog.image)
    (hbelow : ∀ kv ∈ prog.image, kv.1 + 4 ≤ ptAddr) :
    (memImgNew h memSize ptAddr prog ps = .error .capacity ↔
      ∃ kv ∈ prog.image, memSize < kv.1 + 4) ∧
    (∀ img, memImgNew h memSize ptAddr prog ps = .ok img →
      (∀ kv ∈ prog.image, sliceL img.buf kv.1 4 = wordToBytesLE kv.2) ∧
      (∀ p, p < ptAddr → (∀ kv ∈ prog.image, p < kv.1 ∨ kv.1 + 4 ≤ p) →
        img.buf[p]? = some 0) ∧
      (∀ k, k < img.info.num_pages →
        ∃ d, hash_page h (sliceL img.buf (k * ps) ps) = some d ∧
          sliceL img.buf (ptAddr + k * DIGEST_BYTES) DIGEST_BYTES = d)) := by
  constructor
  · unfold memImgNew
    cases hstore : storeWords prog.image (List.replicate memSize 0) with
    | error e =>
      have hcap : e = ImgErr.capacity := by
        cases e
        · rfl
        · exact absurd hstore (storeWords_never_fatal _ _)
      subst hcap
      constructor
      · intro _
        have := (storeWords_capacity_iff _ _).1 hstore
        rwa [List.length_replicate] at this
      · intro _
        rfl
    | ok buf =>
      constructor
      · intro hcontra
        dsimp only at hcontra
        cases hinfo : ptInfoNew ptAddr ps with
        | none => rw [hinfo] at hcontra; exact absurd hcontra (by simp)
        | some info =>
          rw [hinfo] at hcontra
          dsimp only at hcontra
          cases hhp : hashPages h info buf with
          | none => rw [hhp] at hcontra; exact absurd hcontra (by simp)
          | some b => rw [hhp] at hcontra; exact absurd hcontra (by simp)
      · intro ⟨kv, hkv, hviol⟩
        have : storeWords prog.image (List.replicate memSize 0) =
            .error .capacity :=
          (storeWords_capacity_iff _ _).2
            ⟨kv, hkv, by rw [List.length_replicate]; omega⟩
        rw [hstore] at this
        exact absurd this (by simp)
  · intro img hres
    have f := memImgNew_facts hres
    have hD : DIGEST_BYTES = 32 := rfl
    obtain ⟨buf, hstore, hfrozen⟩ := f.store
    have hptamem : ptAddr < memSize := by
      have := (f.pages 0 f.root_pos).2.1
      rw [f.buf_len] at this
      omega
    refine ⟨?_, ?_, ?_⟩
    · intro kv hkv
      have hw := storeWords_words _ _ buf hstore hdisj kv hkv
      rw [← hw]
      apply sliceL_congr
      intro p hp1 hp2
      exact hfrozen p (by have := hbelow kv hkv; omega)
    · intro p hp hout
      rw [hfrozen p hp]
      exact storeWords_zeros _ _ buf hstore p (by omega) hout
    · intro k hk
      obtain ⟨d, h1, _, h3⟩ :=
        (f.pages k (by rw [f.root_eq_pages]; omega)).2.2
      exact ⟨d, h1, h3⟩

/-- Witness for the amended C7: the concrete one-word program is placed in
little-endian order at address 0 of the constructed image. -/
theorem c7_amended_witness :
    (memImgNew shaHashFn 192 128 ⟨0, [(0, 287454020)]⟩ 128).map
      (fun img => sliceL img.buf 0 4) = .ok (wordToBytesLE 287454020) := by
  cases hres : memImgNew shaHashFn 192 128 ⟨0, [(0, 287454020)]⟩ 128 with
  | error e =>
    have hok : isOkImg (memImgNew shaHashFn 192 128 ⟨0, [(0, 287454020)]⟩ 128) =
        true := by decide
    rw [hres] at hok
    exact absurd hok (by simp [isOkImg])
  | ok img =>
    have hc := (c7_amended shaHashFn 192 128 ⟨0, [(0, 287454020)]⟩ 128
      (by simp) (by simp)).2 img hres
    have hw := hc.1 (0, 287454020) (by simp)
    simp [Except.map, hw]
